import Mathlib

/-!
Verification of the AutomationX TTS orchestration layer.

The Python source is shallowly embedded: strings are `List Char`, audio
sample buffers are `List ℚ` (exact rationals standing for the float
samples), times are `ℚ`, and the external synthesis resource, the
torchaudio biquad filters, the float `10 ** (x / 20)` dB conversion and
the persistence layer are opaque parameters supplied to the embedded
functions.  Everything that lives in the repository itself
(`split_into_sentences`, `merge_audio_with_crossfade`, the
`AudioProcessor` chain, the `ModelCache` bookkeeping and the
`process_tts_job` orchestrator) is translated from the source.
-/

namespace AutomationX

/-- Python `\s` / `str.strip` whitespace, restricted to the ASCII
whitespace characters (the repository's splitting regexes only ever see
ordinary text whitespace). -/
def isSpace (c : Char) : Bool :=
  c = ' ' || c = '\t' || c = '\n' || c = '\r' || c = '\x0b' || c = '\x0c'

/-- Sentence-ending punctuation of the regex `(?<=[.!?])\s+` in
`split_into_sentences` (src/core/utils.py line 14). -/
def isSentEnd (c : Char) : Bool :=
  c = '.' || c = '!' || c = '?'

/-- Secondary punctuation of the regex `(?<=[,;:])\s+`
(src/core/utils.py line 27). -/
def isSecEnd (c : Char) : Bool :=
  c = ',' || c = ';' || c = ':'

/-- Python `str.strip()`: drop leading and trailing whitespace. -/
def trim (l : List Char) : List Char :=
  ((l.dropWhile isSpace).reverse.dropWhile isSpace).reverse

/-- The non-whitespace content of a text, used to state that the chunk
planner never drops text. -/
def nonspace (l : List Char) : List Char :=
  l.filter (fun c => !isSpace c)

/-- Head test used by the splitting scan: does the piece accumulated so
far (stored reversed) end with a character in `ends`? -/
def headEnds (ends : Char → Bool) : List Char → Bool
  | [] => false
  | a :: _ => ends a

/-- Scan implementing Python `re.split(r'(?<=[X])\s+', s)`: a separator
is a maximal whitespace run whose first character is directly preceded
by a character satisfying `ends`; the separator is discarded.  `acc` is
the current piece, reversed; `skipping` records that the scan is inside
the whitespace run of a separator that already triggered (the greedy
`\s+`), so further whitespace is still part of that separator. -/
def reSplitGo (ends : Char → Bool) : Bool → List Char → List Char → List (List Char)
  | _, acc, [] => [acc.reverse]
  | true, acc, c :: cs =>
    if isSpace c then reSplitGo ends true acc cs
    else reSplitGo ends false (c :: acc) cs
  | false, acc, c :: cs =>
    if isSpace c && headEnds ends acc then
      acc.reverse :: reSplitGo ends true [] cs
    else
      reSplitGo ends false (c :: acc) cs

/-- `re.split(r'(?<=[X])\s+', s)` with lookbehind class `ends`. -/
def reSplit (ends : Char → Bool) (l : List Char) : List (List Char) :=
  reSplitGo ends false [] l

theorem nonspace_append (l₁ l₂ : List Char) :
    nonspace (l₁ ++ l₂) = nonspace l₁ ++ nonspace l₂ := by
  simp [nonspace, List.filter_append]

theorem nonspace_cons_of_isSpace {c : Char} (h : isSpace c = true) (l : List Char) :
    nonspace (c :: l) = nonspace l := by
  simp [nonspace, List.filter_cons, h]

theorem nonspace_dropWhile_isSpace (l : List Char) :
    nonspace (l.dropWhile isSpace) = nonspace l := by
  induction l with
  | nil => rfl
  | cons c cs ih =>
    by_cases h : isSpace c
    · rw [List.dropWhile_cons_of_pos h, ih, nonspace_cons_of_isSpace h]
    · rw [List.dropWhile_cons_of_neg h]

theorem nonspace_reverse (l : List Char) :
    nonspace l.reverse = (nonspace l).reverse := by
  simp [nonspace, List.filter_reverse]

theorem nonspace_trim (l : List Char) : nonspace (trim l) = nonspace l := by
  unfold trim
  rw [nonspace_reverse, nonspace_dropWhile_isSpace, nonspace_reverse,
    List.reverse_reverse, nonspace_dropWhile_isSpace]

theorem nonspace_flatten_reSplitGo (ends : Char → Bool) :
    ∀ sk acc l, nonspace (reSplitGo ends sk acc l).flatten =
      nonspace acc.reverse ++ nonspace l := by
  intro sk acc l
  induction sk, acc, l using reSplitGo.induct ends with
  | case1 sk acc => simp [reSplitGo, nonspace]
  | case2 acc c cs hsp ih =>
    rw [reSplitGo, if_pos hsp, ih, nonspace_cons_of_isSpace hsp]
  | case3 acc c cs hsp ih =>
    rw [reSplitGo, if_neg hsp, ih, List.reverse_cons, nonspace_append]
    simp [nonspace, List.filter_cons, hsp]
  | case4 acc c cs hcond ih =>
    have hsp : isSpace c = true := (Bool.and_eq_true _ _ |>.mp hcond).1
    rw [reSplitGo, if_pos hcond, List.flatten_cons, nonspace_append, ih,
      nonspace_cons_of_isSpace hsp]
    simp [nonspace]
  | case5 acc c cs hcond ih =>
    rw [reSplitGo, if_neg hcond, ih, List.reverse_cons, nonspace_append]
    cases h : isSpace c <;> simp [nonspace, List.filter_cons, h]

theorem nonspace_flatten_reSplit (ends : Char → Bool) (l : List Char) :
    nonspace (reSplit ends l).flatten = nonspace l := by
  simpa [nonspace] using nonspace_flatten_reSplitGo ends false [] l

/-- Absence of a split point of `re.split`'s lookbehind class between
two adjacent characters. -/
def noSplit (ends : Char → Bool) (a b : Char) : Prop :=
  ¬(ends a = true ∧ isSpace b = true)

instance (ends : Char → Bool) (a b : Char) : Decidable (noSplit ends a b) := by
  unfold noSplit; infer_instance

/-- Every piece emitted by the splitting scan is a contiguous slice of
the input (the scan only discards separator whitespace between pieces). -/
theorem reSplitGo_slice (ends : Char → Bool) :
    ∀ sk acc l, (sk = true → acc = []) → ∀ p ∈ reSplitGo ends sk acc l,
      ∃ u v, acc.reverse ++ l = u ++ (p ++ v) := by
  intro sk acc l
  induction sk, acc, l using reSplitGo.induct ends with
  | case1 sk acc =>
    intro _ p hp
    rw [reSplitGo] at hp
    rcases List.mem_singleton.mp hp with rfl
    exact ⟨[], [], by simp⟩
  | case2 acc c cs hsp ih =>
    intro hsk p hp
    rw [reSplitGo, if_pos hsp] at hp
    rcases hsk rfl with rfl
    rcases ih (fun _ => rfl) p hp with ⟨u, v, huv⟩
    simp only [List.reverse_nil, List.nil_append] at huv
    exact ⟨c :: u, v, by simp [huv]⟩
  | case3 acc c cs hsp ih =>
    intro hsk p hp
    rw [reSplitGo, if_neg hsp] at hp
    rcases hsk rfl with rfl
    rcases ih (by intro h; cases h) p hp with ⟨u, v, huv⟩
    refine ⟨u, v, ?_⟩
    simpa using huv
  | case4 acc c cs hcond ih =>
    intro _ p hp
    rw [reSplitGo, if_pos hcond] at hp
    rcases List.mem_cons.mp hp with rfl | hp
    · exact ⟨[], c :: cs, by simp⟩
    · rcases ih (fun _ => rfl) p hp with ⟨u, v, huv⟩
      simp only [List.reverse_nil, List.nil_append] at huv
      refine ⟨acc.reverse ++ (c :: u), v, ?_⟩
      rw [List.append_assoc]
      simp [huv]
  | case5 acc c cs hcond ih =>
    intro _ p hp
    rw [reSplitGo, if_neg hcond] at hp
    rcases ih (by intro h; cases h) p hp with ⟨u, v, huv⟩
    refine ⟨u, v, ?_⟩
    simpa using huv

/-- Within a piece emitted by the splitting scan there is no split
point: any adjacency `(a, b)` with `ends a` and whitespace `b` would
have been matched by the separator regex. -/
theorem chain'_reverse_cons {acc : List Char} {c : Char}
    {ends : Char → Bool} (hacc : List.Chain' (noSplit ends) acc.reverse)
    (hok : ∀ a, acc.headI = a → acc ≠ [] → noSplit ends a c) :
    List.Chain' (noSplit ends) (c :: acc).reverse := by
  rw [List.reverse_cons, List.chain'_append]
  refine ⟨hacc, List.chain'_singleton c, ?_⟩
  intro x hx y hy
  rcases List.mem_singleton.mp (by simpa using hy) with rfl
  cases acc with
  | nil => simp at hx
  | cons a as =>
    have hx' : x = a := by
      rw [List.getLast?_reverse] at hx
      exact (by simpa using hx : a = x).symm
    subst hx'
    exact hok x rfl (by simp)

theorem reSplitGo_chain (ends : Char → Bool) :
    ∀ sk acc l, List.Chain' (noSplit ends) acc.reverse →
      ∀ p ∈ reSplitGo ends sk acc l, List.Chain' (noSplit ends) p := by
  intro sk acc l
  induction sk, acc, l using reSplitGo.induct ends with
  | case1 sk acc =>
    intro hacc p hp
    rw [reSplitGo] at hp
    rcases List.mem_singleton.mp hp with rfl
    exact hacc
  | case2 acc c cs hsp ih =>
    intro hacc p hp
    rw [reSplitGo, if_pos hsp] at hp
    exact ih hacc p hp
  | case3 acc c cs hsp ih =>
    intro hacc p hp
    rw [reSplitGo, if_neg hsp] at hp
    refine ih (chain'_reverse_cons hacc ?_) p hp
    intro a _ _ hcontra
    exact absurd hcontra.2 (by simpa using hsp)
  | case4 acc c cs hcond ih =>
    intro hacc p hp
    rw [reSplitGo, if_pos hcond] at hp
    rcases List.mem_cons.mp hp with rfl | hp
    · exact hacc
    · exact ih (by simp) p hp
  | case5 acc c cs hcond ih =>
    intro hacc p hp
    rw [reSplitGo, if_neg hcond] at hp
    refine ih (chain'_reverse_cons hacc ?_) p hp
    intro a ha hne hcontra
    apply hcond
    rw [Bool.and_eq_true]
    refine ⟨hcontra.2, ?_⟩
    cases acc with
    | nil => exact absurd rfl hne
    | cons b bs =>
      have : a = b := by
        exact (by simpa using ha : b = a).symm
      subst this
      simpa [headEnds] using hcontra.1

/-- One step of the greedy accumulation in `split_into_sentences`
(src/core/utils.py lines 28-41): either append `piece` to the running
chunk when it fits within `maxChars`, or flush the running chunk (when
non-empty) and restart from `piece`.  The state is
`(finished chunks, current chunk)`. -/
def addPiece (maxChars : ℕ) (st : List (List Char) × List Char)
    (piece : List Char) : List (List Char) × List Char :=
  if st.2.length + piece.length + 1 ≤ maxChars then
    (st.1, trim (st.2 ++ ' ' :: piece))
  else
    (if st.2 = [] then st.1 else st.1 ++ [st.2], piece)

/-- One iteration of the sentence loop in `split_into_sentences`
(src/core/utils.py lines 20-41): strip the sentence, skip it when
empty, split it on secondary punctuation when it exceeds `maxChars`,
otherwise accumulate it directly. -/
def addSentence (maxChars : ℕ) (st : List (List Char) × List Char)
    (sentence : List Char) : List (List Char) × List Char :=
  let s := trim sentence
  if s = [] then st
  else if maxChars < s.length then
    (reSplit isSecEnd s).foldl (addPiece maxChars) st
  else
    addPiece maxChars st s

/-- The flush after the sentence loop (src/core/utils.py lines 43-44):
append the running chunk to the finished chunks when it is non-empty. -/
def chunksOf (st : List (List Char) × List Char) : List (List Char) :=
  if st.2 = [] then st.1 else st.1 ++ [st.2]

/-- The final fallback (src/core/utils.py line 46): `chunks if chunks
else [text]`. -/
def finalizeChunks (text : List Char) (st : List (List Char) × List Char) :
    List (List Char) :=
  if chunksOf st = [] then [text] else chunksOf st

/-- `split_into_sentences` (src/core/utils.py lines 9-46): split the
stripped text on sentence-ending punctuation, greedily accumulate
sentences (splitting over-long sentences on secondary punctuation) into
chunks of at most `maxChars` characters, flush the final chunk, and
fall back to the original text when no chunks were produced. -/
def split_into_sentences (text : List Char) (maxChars : ℕ) : List (List Char) :=
  finalizeChunks text ((reSplit isSentEnd (trim text)).foldl (addSentence maxChars) ([], []))

theorem addPiece_nonspace (m : ℕ) (st : List (List Char) × List Char)
    (p : List Char) :
    nonspace (addPiece m st p).1.flatten ++ nonspace (addPiece m st p).2 =
      nonspace st.1.flatten ++ (nonspace st.2 ++ nonspace p) := by
  unfold addPiece
  by_cases hfit : st.2.length + p.length + 1 ≤ m
  · rw [if_pos hfit]
    simp only [nonspace_trim, nonspace_append]
    have hsp : nonspace (' ' :: p) = nonspace p :=
      nonspace_cons_of_isSpace (by decide) p
    rw [hsp]
  · rw [if_neg hfit]
    by_cases hcur : st.2 = []
    · rw [if_pos hcur]
      simp [hcur, nonspace]
    · rw [if_neg hcur]
      simp [nonspace_append, nonspace, List.append_assoc]

theorem foldl_addPiece_nonspace (m : ℕ) :
    ∀ (ps : List (List Char)) (st : List (List Char) × List Char),
      nonspace ((ps.foldl (addPiece m) st).1.flatten) ++
          nonspace (ps.foldl (addPiece m) st).2 =
        nonspace st.1.flatten ++ (nonspace st.2 ++ nonspace ps.flatten) := by
  intro ps
  induction ps with
  | nil => intro st; simp [nonspace]
  | cons p ps ih =>
    intro st
    rw [List.foldl_cons, ih, ← List.append_assoc, addPiece_nonspace]
    simp [List.flatten_cons, nonspace_append, List.append_assoc]

theorem addSentence_nonspace (m : ℕ) (st : List (List Char) × List Char)
    (s : List Char) :
    nonspace (addSentence m st s).1.flatten ++ nonspace (addSentence m st s).2 =
      nonspace st.1.flatten ++ (nonspace st.2 ++ nonspace s) := by
  unfold addSentence
  by_cases hnil : trim s = []
  · rw [if_pos hnil]
    have : nonspace s = [] := by rw [← nonspace_trim, hnil]; rfl
    simp [this]
  · rw [if_neg hnil]
    by_cases hlong : m < (trim s).length
    · rw [if_pos hlong, foldl_addPiece_nonspace]
      rw [nonspace_flatten_reSplit, nonspace_trim]
    · rw [if_neg hlong, addPiece_nonspace, nonspace_trim]

theorem foldl_addSentence_nonspace (m : ℕ) :
    ∀ (ss : List (List Char)) (st : List (List Char) × List Char),
      nonspace ((ss.foldl (addSentence m) st).1.flatten) ++
          nonspace (ss.foldl (addSentence m) st).2 =
        nonspace st.1.flatten ++ (nonspace st.2 ++ nonspace ss.flatten) := by
  intro ss
  induction ss with
  | nil => intro st; simp [nonspace]
  | cons s ss ih =>
    intro st
    rw [List.foldl_cons, ih, ← List.append_assoc, addSentence_nonspace]
    simp [List.flatten_cons, nonspace_append, List.append_assoc]

theorem chunksOf_nonspace (st : List (List Char) × List Char) :
    nonspace (chunksOf st).flatten = nonspace st.1.flatten ++ nonspace st.2 := by
  unfold chunksOf
  by_cases hcur : st.2 = []
  · rw [if_pos hcur, hcur]
    simp [nonspace]
  · rw [if_neg hcur, List.flatten_append, nonspace_append]
    simp [nonspace]

theorem finalizeChunks_nonspace (text : List Char)
    (st : List (List Char) × List Char)
    (h : nonspace st.1.flatten ++ nonspace st.2 = nonspace text) :
    nonspace (finalizeChunks text st).flatten = nonspace text := by
  unfold finalizeChunks
  by_cases hnil : chunksOf st = []
  · rw [if_pos hnil]
    simp [nonspace]
  · rw [if_neg hnil, chunksOf_nonspace]
    exact h

theorem split_into_sentences_nonspace (text : List Char) (m : ℕ) :
    nonspace (split_into_sentences text m).flatten = nonspace text := by
  unfold split_into_sentences
  apply finalizeChunks_nonspace
  have hfold := foldl_addSentence_nonspace m (reSplit isSentEnd (trim text)) ([], [])
  rw [nonspace_flatten_reSplit, nonspace_trim] at hfold
  simpa [nonspace] using hfold

theorem split_into_sentences_of_trim_nil {text : List Char} (m : ℕ)
    (h : trim text = []) : split_into_sentences text m = [text] := by
  unfold split_into_sentences
  rw [h]
  rfl

/-- C1: for every input text and every max chunk length, the chunk
planner never drops text: the concatenation of the returned chunks has
exactly the non-whitespace content of the original text, in order, and
when the pipeline produces no chunks (the stripped text is empty) the
original text is returned as a single chunk. -/
theorem chunk_planner_preserves_content (text : List Char) (m : ℕ) :
    nonspace (split_into_sentences text m).flatten = nonspace text ∧
    (trim text = [] → split_into_sentences text m = [text]) :=
  ⟨split_into_sentences_nonspace text m, split_into_sentences_of_trim_nil m⟩

theorem chunk_planner_preserves_content_witness :
    nonspace (split_into_sentences [' ', '\t'] 5).flatten = nonspace [' ', '\t'] ∧
    split_into_sentences [' ', '\t'] 5 = [[' ', '\t']] :=
  ⟨(chunk_planner_preserves_content [' ', '\t'] 5).1,
   (chunk_planner_preserves_content [' ', '\t'] 5).2 (by decide)⟩

theorem trim_length_le (l : List Char) : (trim l).length ≤ l.length := by
  unfold trim
  calc ((l.dropWhile isSpace).reverse.dropWhile isSpace).reverse.length
      = ((l.dropWhile isSpace).reverse.dropWhile isSpace).length := by
        rw [List.length_reverse]
    _ ≤ (l.dropWhile isSpace).reverse.length :=
        List.IsSuffix.length_le (List.dropWhile_suffix _)
    _ = (l.dropWhile isSpace).length := by rw [List.length_reverse]
    _ ≤ l.length := List.IsSuffix.length_le (List.dropWhile_suffix _)

theorem trim_slice (l : List Char) : ∃ u v, l = u ++ (trim l ++ v) := by
  refine ⟨l.takeWhile isSpace,
    ((l.dropWhile isSpace).reverse.takeWhile isSpace).reverse, ?_⟩
  unfold trim
  conv_lhs => rw [← List.takeWhile_append_dropWhile (p := isSpace) (l := l)]
  congr 1
  conv_lhs => rw [← List.reverse_reverse (l.dropWhile isSpace),
    ← List.takeWhile_append_dropWhile (p := isSpace)
      (l := (l.dropWhile isSpace).reverse)]
  rw [List.reverse_append]

theorem trim_eq_nil_iff (l : List Char) :
    trim l = [] ↔ ∀ c ∈ l, isSpace c = true := by
  unfold trim
  rw [List.reverse_eq_nil_iff, List.dropWhile_eq_nil_iff]
  constructor
  · intro h c hc
    rcases List.mem_append.mp
        ((List.takeWhile_append_dropWhile (p := isSpace) (l := l)) ▸ hc) with h1 | h1
    · exact List.mem_takeWhile_imp h1
    · exact h c (List.mem_reverse.mpr h1)
  · intro h c hc
    exact h c (List.IsSuffix.subset (List.dropWhile_suffix _)
      (List.mem_reverse.mp hc))

theorem isSentEnd_eq_false_of_isSpace {c : Char} (h : isSpace c = true) :
    isSentEnd c = false := by
  simp only [isSpace, Bool.or_eq_true, decide_eq_true_eq] at h
  rcases h with ((((rfl | rfl) | rfl) | rfl) | rfl) | rfl <;> rfl

theorem isSecEnd_eq_false_of_isSpace {c : Char} (h : isSpace c = true) :
    isSecEnd c = false := by
  simp only [isSpace, Bool.or_eq_true, decide_eq_true_eq] at h
  rcases h with ((((rfl | rfl) | rfl) | rfl) | rfl) | rfl <;> rfl

/-- A chunk with no internal split point of either splitting regex: a
single atomic token in the sense of the specification. -/
def atomicChunk (c : List Char) : Prop :=
  List.Chain' (noSplit isSentEnd) c ∧ List.Chain' (noSplit isSecEnd) c

instance (c : List Char) : Decidable (atomicChunk c) := by
  unfold atomicChunk; infer_instance

theorem chain'_noSplit_of_ends_false {ends : Char → Bool} {l : List Char}
    (h : ∀ c ∈ l, ends c = false) : List.Chain' (noSplit ends) l := by
  induction l with
  | nil => exact List.chain'_nil
  | cons a l ih =>
    cases l with
    | nil => exact List.chain'_singleton a
    | cons b l' =>
      rw [List.chain'_cons]
      refine ⟨?_, ih (fun c hc => h c (List.mem_cons_of_mem a hc))⟩
      intro hc
      rw [h a (List.mem_cons_self a (b :: l'))] at hc
      exact absurd hc.1 (by simp)

theorem atomicChunk_of_all_space {l : List Char}
    (h : ∀ c ∈ l, isSpace c = true) : atomicChunk l :=
  ⟨chain'_noSplit_of_ends_false
      (fun c hc => isSentEnd_eq_false_of_isSpace (h c hc)),
    chain'_noSplit_of_ends_false
      (fun c hc => isSecEnd_eq_false_of_isSpace (h c hc))⟩

theorem nonspace_eq_nil_iff (l : List Char) : nonspace l = [] ↔ trim l = [] := by
  rw [trim_eq_nil_iff, nonspace, List.filter_eq_nil_iff]
  constructor
  · intro h c hc
    have := h c hc
    simpa using this
  · intro h c hc
    simp [h c hc]

/-- Both components of the accumulation state obey the chunk-size
contract: at most `m` characters, except for atomic tokens. -/
def goodState (m : ℕ) (st : List (List Char) × List Char) : Prop :=
  (∀ c ∈ st.1, c.length ≤ m ∨ atomicChunk c) ∧
    (st.2.length ≤ m ∨ atomicChunk st.2)

theorem addPiece_good {m : ℕ} {st : List (List Char) × List Char}
    {p : List Char} (hst : goodState m st)
    (hp : p.length ≤ m ∨ atomicChunk p) : goodState m (addPiece m st p) := by
  obtain ⟨hst1, hst2⟩ := hst
  unfold addPiece
  by_cases hfit : st.2.length + p.length + 1 ≤ m
  · rw [if_pos hfit]
    refine ⟨hst1, Or.inl ?_⟩
    calc (trim (st.2 ++ ' ' :: p)).length ≤ (st.2 ++ ' ' :: p).length :=
          trim_length_le _
      _ = st.2.length + (p.length + 1) := by simp
      _ ≤ m := by omega
  · rw [if_neg hfit]
    refine ⟨?_, hp⟩
    by_cases hcur : st.2 = []
    · rw [if_pos hcur]; exact hst1
    · rw [if_neg hcur]
      intro c hc
      rcases List.mem_append.mp hc with h | h
      · exact hst1 c h
      · rcases List.mem_singleton.mp h with rfl
        exact hst2

theorem foldl_addPiece_good {m : ℕ} :
    ∀ (ps : List (List Char)) (st : List (List Char) × List Char),
      (∀ p ∈ ps, p.length ≤ m ∨ atomicChunk p) → goodState m st →
      goodState m (ps.foldl (addPiece m) st) := by
  intro ps
  induction ps with
  | nil => intro st _ hst; exact hst
  | cons p ps ih =>
    intro st hps hst
    rw [List.foldl_cons]
    exact ih _ (fun q hq => hps q (List.mem_cons_of_mem p hq))
      (addPiece_good hst (hps p (List.mem_cons_self p ps)))

theorem chain'_of_trim {ends : Char → Bool} {l : List Char}
    (h : List.Chain' (noSplit ends) l) :
    List.Chain' (noSplit ends) (trim l) := by
  rcases trim_slice l with ⟨u, v, huv⟩
  rw [huv] at h
  exact (h.right_of_append).left_of_append

theorem reSplit_parts_atomic {s : List Char}
    (hsent : List.Chain' (noSplit isSentEnd) s) :
    ∀ p ∈ reSplit isSecEnd s, atomicChunk p := by
  intro p hp
  refine ⟨?_, reSplitGo_chain isSecEnd false [] s (by simp) p hp⟩
  rcases reSplitGo_slice isSecEnd false [] s (by intro h; cases h) p hp with
    ⟨u, v, huv⟩
  simp only [List.reverse_nil, List.nil_append] at huv
  rw [huv] at hsent
  exact (hsent.right_of_append).left_of_append

theorem addSentence_good {m : ℕ} {st : List (List Char) × List Char}
    {sentence : List Char}
    (hsent : List.Chain' (noSplit isSentEnd) sentence)
    (hst : goodState m st) : goodState m (addSentence m st sentence) := by
  unfold addSentence
  have hschain : List.Chain' (noSplit isSentEnd) (trim sentence) :=
    chain'_of_trim hsent
  by_cases hnil : trim sentence = []
  · rw [if_pos hnil]; exact hst
  · rw [if_neg hnil]
    by_cases hlong : m < (trim sentence).length
    · rw [if_pos hlong]
      exact foldl_addPiece_good _ _
        (fun p hp => Or.inr (reSplit_parts_atomic hschain p hp)) hst
    · rw [if_neg hlong]
      exact addPiece_good hst (Or.inl (by omega))

theorem foldl_addSentence_good {m : ℕ} :
    ∀ (ss : List (List Char)) (st : List (List Char) × List Char),
      (∀ s ∈ ss, List.Chain' (noSplit isSentEnd) s) → goodState m st →
      goodState m (ss.foldl (addSentence m) st) := by
  intro ss
  induction ss with
  | nil => intro st _ hst; exact hst
  | cons s ss ih =>
    intro st hss hst
    rw [List.foldl_cons]
    exact ih _ (fun q hq => hss q (List.mem_cons_of_mem s hq))
      (addSentence_good (hss s (List.mem_cons_self s ss)) hst)

/-- C4: every chunk produced by the chunk planner is at most `m`
characters long, except for chunks that are single atomic tokens (no
sentence-ending or secondary-punctuation split point anywhere inside
them). -/
theorem chunk_length_bounded (text : List Char) (m : ℕ) :
    ∀ c ∈ split_into_sentences text m, c.length ≤ m ∨ atomicChunk c := by
  by_cases htr : trim text = []
  · rw [split_into_sentences_of_trim_nil m htr]
    intro c hc
    rcases List.mem_singleton.mp hc with rfl
    exact Or.inr (atomicChunk_of_all_space ((trim_eq_nil_iff _).mp htr))
  · intro c hc
    unfold split_into_sentences finalizeChunks at hc
    have hgood : goodState m
        ((reSplit isSentEnd (trim text)).foldl (addSentence m) ([], [])) := by
      refine foldl_addSentence_good _ _ ?_ ⟨by simp, Or.inl (Nat.zero_le m)⟩
      intro s hs
      exact reSplitGo_chain isSentEnd false [] (trim text) (by simp) s hs
    set st := (reSplit isSentEnd (trim text)).foldl (addSentence m) ([], []) with hst
    have hne : chunksOf st ≠ [] := by
      intro hnil
      apply htr
      rw [← nonspace_eq_nil_iff]
      have h1 : nonspace (chunksOf st).flatten =
          nonspace st.1.flatten ++ nonspace st.2 := chunksOf_nonspace st
      have h2 : nonspace st.1.flatten ++ nonspace st.2 = nonspace text := by
        have hfold := foldl_addSentence_nonspace m (reSplit isSentEnd (trim text)) ([], [])
        rw [nonspace_flatten_reSplit, nonspace_trim] at hfold
        simpa [nonspace, hst] using hfold
      rw [hnil] at h1
      rw [← h2, ← h1]
      rfl
    rw [if_neg hne] at hc
    unfold chunksOf at hc
    by_cases hcur : st.2 = []
    · rw [if_pos hcur] at hc
      exact hgood.1 c hc
    · rw [if_neg hcur] at hc
      rcases List.mem_append.mp hc with h | h
      · exact hgood.1 c h
      · rcases List.mem_singleton.mp h with rfl
        exact hgood.2

theorem chunk_length_bounded_witness :
    ['L', 'o', 'n', 'g', '-', 'w', 'o', 'r', 'd'].length ≤ 4 ∨
      atomicChunk ['L', 'o', 'n', 'g', '-', 'w', 'o', 'r', 'd'] :=
  chunk_length_bounded ['L', 'o', 'n', 'g', '-', 'w', 'o', 'r', 'd'] 4
    ['L', 'o', 'n', 'g', '-', 'w', 'o', 'r', 'd'] (by decide)

/-- `torch.linspace(s, e, steps)`: `steps` evenly spaced values from
`s` to `e` inclusive. -/
def linspace (s e : ℚ) : ℕ → List ℚ
  | 0 => []
  | 1 => [s]
  | n + 2 => (List.range (n + 2)).map (fun k : ℕ => s + (e - s) * (k : ℚ) / ((n : ℚ) + 1))

/-- The in-place linear fade-out on the tail of a segment
(src/core/utils.py lines 75-77), skipped when the segment is not longer
than the fade window. -/
def fadeOutSeg (fade_samples : ℕ) (fade_out_curve : List ℚ)
    (seg : List ℚ) : List ℚ :=
  if fade_samples < seg.length then
    seg.take (seg.length - fade_samples) ++
      List.zipWith (· * ·) (seg.drop (seg.length - fade_samples)) fade_out_curve
  else seg

/-- The in-place linear fade-in on the head of a segment
(src/core/utils.py lines 79-81), applied only from the second segment
on and skipped when the segment is not longer than the fade window. -/
def fadeInSeg (fade_samples : ℕ) (fade_in_curve : List ℚ) (i : ℕ)
    (seg : List ℚ) : List ℚ :=
  if 0 < i ∧ fade_samples < seg.length then
    List.zipWith (· * ·) (seg.take fade_samples) fade_in_curve ++
      seg.drop fade_samples
  else seg

/-- The full in-place fade applied to segment `i` in
`merge_audio_with_crossfade` (src/core/utils.py lines 72-83). -/
def fadeSeg (fade_samples : ℕ) (fade_out_curve fade_in_curve : List ℚ)
    (i : ℕ) (seg : List ℚ) : List ℚ :=
  fadeInSeg fade_samples fade_in_curve i (fadeOutSeg fade_samples fade_out_curve seg)

/-- The loop body of `merge_audio_with_crossfade` (src/core/utils.py
lines 71-87): fade each segment and insert an inter-segment silence
buffer after every segment except the last. -/
def mergeGo (fade_samples : ℕ) (fade_out_curve fade_in_curve : List ℚ)
    (silence_samples : ℕ) : ℕ → List (List ℚ) → List (List ℚ)
  | _, [] => []
  | i, seg :: rest =>
    let s := fadeSeg fade_samples fade_out_curve fade_in_curve i seg
    if rest = [] then [s]
    else s :: List.replicate silence_samples 0 :: mergeGo fade_samples
      fade_out_curve fade_in_curve silence_samples (i + 1) rest

/-- `merge_audio_with_crossfade` (src/core/utils.py lines 49-89) on a
single audio channel: a single segment is returned unchanged, otherwise
the faded segments and silence buffers are concatenated.  (With an
empty segment list the Python `torch.cat` raises, which is outside the
modelled domain; the orchestrator never passes an empty list.) -/
def merge_audio_with_crossfade (segments : List (List ℚ)) (sample_rate : ℕ)
    (silence_ms : ℕ := 150) (fade_ms : ℕ := 30) : List ℚ :=
  if segments.length = 1 then segments.headI
  else
    let silence_samples := sample_rate * silence_ms / 1000
    let fade_samples := sample_rate * fade_ms / 1000
    (mergeGo fade_samples (linspace 1 0 fade_samples)
      (linspace 0 1 fade_samples) silence_samples 0 segments).flatten

theorem length_linspace (s e : ℚ) (n : ℕ) : (linspace s e n).length = n := by
  match n with
  | 0 => rfl
  | 1 => rfl
  | n + 2 =>
    rw [linspace, List.length_map, List.length_range]

theorem fadeOutSeg_length {f : ℕ} {co : List ℚ} (hco : co.length = f)
    (seg : List ℚ) : (fadeOutSeg f co seg).length = seg.length := by
  unfold fadeOutSeg
  by_cases h : f < seg.length
  · rw [if_pos h, List.length_append, List.length_take, List.length_zipWith,
      List.length_drop, hco]
    omega
  · rw [if_neg h]

theorem fadeInSeg_length {f : ℕ} {ci : List ℚ} (hci : ci.length = f)
    (i : ℕ) (seg : List ℚ) : (fadeInSeg f ci i seg).length = seg.length := by
  unfold fadeInSeg
  by_cases h : 0 < i ∧ f < seg.length
  · rw [if_pos h, List.length_append, List.length_zipWith, List.length_take,
      List.length_drop, hci]
    omega
  · rw [if_neg h]

theorem fadeSeg_length {f : ℕ} {co ci : List ℚ} (hco : co.length = f)
    (hci : ci.length = f) (i : ℕ) (seg : List ℚ) :
    (fadeSeg f co ci i seg).length = seg.length := by
  unfold fadeSeg
  rw [fadeInSeg_length hci, fadeOutSeg_length hco]

theorem fadeSeg_short {f : ℕ} {co ci : List ℚ} (i : ℕ) {seg : List ℚ}
    (h : seg.length ≤ f) : fadeSeg f co ci i seg = seg := by
  unfold fadeSeg fadeOutSeg fadeInSeg
  rw [if_neg (show ¬ f < seg.length by omega)]
  rw [if_neg (show ¬ (0 < i ∧ f < seg.length) by omega)]

theorem mergeGo_flatten_length {f sil : ℕ} {co ci : List ℚ}
    (hco : co.length = f) (hci : ci.length = f) :
    ∀ (segs : List (List ℚ)) (i : ℕ), segs ≠ [] →
      ((mergeGo f co ci sil i segs).flatten).length =
        (segs.map List.length).sum + (segs.length - 1) * sil := by
  intro segs
  induction segs with
  | nil => intro i h; exact absurd rfl h
  | cons seg rest ih =>
    intro i _
    by_cases hrest : rest = []
    · subst hrest
      simp only [mergeGo, if_pos rfl]
      simp [fadeSeg_length hco hci]
    · rw [mergeGo]
      simp only [if_neg hrest]
      rw [List.flatten_cons, List.flatten_cons]
      rw [List.length_append, List.length_append,
        fadeSeg_length hco hci, List.length_replicate, ih (i + 1) hrest]
      obtain ⟨k, hk⟩ : ∃ k, rest.length = k + 1 :=
        ⟨rest.length - 1, by
          have : rest.length ≠ 0 := fun h0 => hrest (List.length_eq_zero.mp h0)
          omega⟩
      simp only [List.map_cons, List.sum_cons, List.length_cons, hk,
        Nat.add_sub_cancel, Nat.succ_mul]
      omega

/-- C5: merging `N > 1` segments yields exactly the sum of the segment
lengths plus `N - 1` inter-segment silence buffers; the fades are
length-preserving in-place scalings and are the identity on segments
not longer than the fade window.  (The hypothesis `0 < fade window`
matches reality: with a zero-length fade window the Python broadcast
`seg[0, -0:] *= fade_out` would raise instead of producing output.) -/
theorem merge_total_length (segments : List (List ℚ)) (sample_rate silence_ms fade_ms : ℕ)
    (hN : 1 < segments.length) (hfade : 0 < sample_rate * fade_ms / 1000) :
    (merge_audio_with_crossfade segments sample_rate silence_ms fade_ms).length =
        (segments.map List.length).sum +
          (segments.length - 1) * (sample_rate * silence_ms / 1000) ∧
      (∀ i seg, (fadeSeg (sample_rate * fade_ms / 1000)
          (linspace 1 0 (sample_rate * fade_ms / 1000))
          (linspace 0 1 (sample_rate * fade_ms / 1000)) i seg).length = seg.length) ∧
      (∀ i seg, seg.length ≤ sample_rate * fade_ms / 1000 →
        fadeSeg (sample_rate * fade_ms / 1000)
          (linspace 1 0 (sample_rate * fade_ms / 1000))
          (linspace 0 1 (sample_rate * fade_ms / 1000)) i seg = seg) := by
  refine ⟨?_, fun i seg => fadeSeg_length (length_linspace _ _ _) (length_linspace _ _ _) i seg,
    fun i seg h => fadeSeg_short i h⟩
  unfold merge_audio_with_crossfade
  rw [if_neg (by omega)]
  exact mergeGo_flatten_length (length_linspace _ _ _) (length_linspace _ _ _)
    segments 0 (by intro h0; rw [h0] at hN; simp at hN)

theorem merge_total_length_witness :
    (merge_audio_with_crossfade [[1, 2, 3], [4, 5]] 1000 150 30).length =
        ([[1, 2, 3], [4, 5]].map List.length).sum + (2 - 1) * (1000 * 150 / 1000) :=
  (merge_total_length [[(1 : ℚ), 2, 3], [4, 5]] 1000 150 30 (by decide) (by decide)).1

/-- C9: merging a single-element segment list returns that segment
unchanged: no fade is applied and no silence is inserted. -/
theorem merge_singleton (seg : List ℚ) (sample_rate silence_ms fade_ms : ℕ) :
    merge_audio_with_crossfade [seg] sample_rate silence_ms fade_ms = seg :=
  rfl

/-- Peak amplitude `torch.max(torch.abs(wav))` of a sample buffer
(src/core/audio_processor.py line 44); the empty buffer is given peak 0
(where the Python `torch.max` would raise). -/
def maxAbs (wav : List ℚ) : ℚ :=
  (wav.map (fun x => |x|)).foldr max 0

/-- The raw 0/1 gate mask `(abs_wav > threshold_linear).float()`
(src/core/audio_processor.py line 26). -/
def gateMask (threshold_linear : ℚ) (wav : List ℚ) : List ℚ :=
  wav.map (fun x => if threshold_linear < |x| then (1 : ℚ) else 0)

/-- One output of `avg_pool1d(kernel_size 101, stride 1, padding 50)`
with zero padding and divisor 101 (src/core/audio_processor.py lines
32-34). -/
def windowAvg (mask : List ℚ) (i : ℕ) : ℚ :=
  ((mask.drop (i - 50)).take (i + 51 - (i - 50))).sum / 101

/-- The smoothed, clamped gate mask (src/core/audio_processor.py lines
32-35). -/
def smoothMask (mask : List ℚ) : List ℚ :=
  (List.range mask.length).map (fun i => min 1 (max 0 (windowAvg mask i)))

/-- `apply_noise_gate` (src/core/audio_processor.py lines 20-39).  The
float conversion `10 ** (threshold_db / 20)` happens at the caller; the
gate itself receives the linear threshold. -/
def apply_noise_gate (threshold_linear : ℚ) (wav : List ℚ) : List ℚ :=
  let gate_mask := gateMask threshold_linear wav
  let mask := if 101 < wav.length then smoothMask gate_mask else gate_mask
  List.zipWith (· * ·) wav mask

/-- `apply_normalize` (src/core/audio_processor.py lines 42-49): scale
so the peak hits the target level, the identity when the peak is 0.
The float conversion `10 ** (target_db / 20)` happens at the caller. -/
def apply_normalize (target_linear : ℚ) (wav : List ℚ) : List ℚ :=
  if 0 < maxAbs wav then wav.map (fun x => x * (target_linear / maxAbs wav))
  else wav

/-- The `AudioProcessor` configuration (src/core/audio_processor.py
lines 55-59), with the `config.get` defaults already resolved. -/
structure AudioConfig where
  highpass_freq : ℚ
  lowpass_freq : ℚ
  noise_gate_threshold : ℚ
  normalize_audio : Bool

/-- `AudioProcessor.process` (src/core/audio_processor.py lines 61-78):
highpass, then lowpass, then noise gate (only when the configured
threshold exceeds -100 dB), then peak normalization (only when
enabled).  `hp` and `lp` are the external torchaudio biquad filters
(wav, sample rate, cutoff) and `dbToLinear` is the external float
computation `10 ** (x / 20)`. -/
def AudioProcessor.process (hp lp : List ℚ → ℕ → ℚ → List ℚ)
    (dbToLinear : ℚ → ℚ) (config : AudioConfig) (wav : List ℚ) (sr : ℕ) :
    List ℚ :=
  let wav1 := hp wav sr config.highpass_freq
  let wav2 := lp wav1 sr config.lowpass_freq
  let wav3 := if -100 < config.noise_gate_threshold then
      apply_noise_gate (dbToLinear config.noise_gate_threshold) wav2
    else wav2
  if config.normalize_audio then apply_normalize (dbToLinear (-3)) wav3
  else wav3

/-- C6: the post-processing chain applies highpass, then lowpass, then
noise gate, then peak normalize, in this fixed order; the gate stage is
skipped exactly when the configured threshold is at or below -100 dB;
the normalize stage is skipped when normalization is disabled and is
the identity on buffers whose peak amplitude is zero. -/
theorem filter_chain_order (hp lp : List ℚ → ℕ → ℚ → List ℚ)
    (dbToLinear : ℚ → ℚ) (cfg : AudioConfig) (wav : List ℚ) (sr : ℕ) :
    (cfg.noise_gate_threshold ≤ -100 →
      AudioProcessor.process hp lp dbToLinear cfg wav sr =
        (if cfg.normalize_audio then
            apply_normalize (dbToLinear (-3))
              (lp (hp wav sr cfg.highpass_freq) sr cfg.lowpass_freq)
          else lp (hp wav sr cfg.highpass_freq) sr cfg.lowpass_freq)) ∧
    (-100 < cfg.noise_gate_threshold →
      AudioProcessor.process hp lp dbToLinear cfg wav sr =
        (if cfg.normalize_audio then
            apply_normalize (dbToLinear (-3))
              (apply_noise_gate (dbToLinear cfg.noise_gate_threshold)
                (lp (hp wav sr cfg.highpass_freq) sr cfg.lowpass_freq))
          else
            apply_noise_gate (dbToLinear cfg.noise_gate_threshold)
              (lp (hp wav sr cfg.highpass_freq) sr cfg.lowpass_freq))) ∧
    (cfg.normalize_audio = false →
      AudioProcessor.process hp lp dbToLinear cfg wav sr =
        (if -100 < cfg.noise_gate_threshold then
            apply_noise_gate (dbToLinear cfg.noise_gate_threshold)
              (lp (hp wav sr cfg.highpass_freq) sr cfg.lowpass_freq)
          else lp (hp wav sr cfg.highpass_freq) sr cfg.lowpass_freq)) ∧
    (maxAbs wav = 0 → apply_normalize (dbToLinear (-3)) wav = wav) := by
  refine ⟨?_, ?_, ?_, ?_⟩
  · intro h
    simp only [AudioProcessor.process]
    rw [if_neg (not_lt.mpr h)]
  · intro h
    simp only [AudioProcessor.process]
    rw [if_pos h]
  · intro h
    simp only [AudioProcessor.process, h]
    rfl
  · intro h
    unfold apply_normalize
    rw [h]
    rfl

theorem filter_chain_order_witness :
    (AudioProcessor.process (fun w _ _ => w) (fun w _ _ => w) (fun _ => 1)
        ⟨80, 10000, -150, false⟩ [1, 2] 24000 = [1, 2]) ∧
    (AudioProcessor.process (fun w _ _ => w) (fun w _ _ => w) (fun _ => 1)
        ⟨80, 10000, -45, true⟩ [0, 0] 24000 = [0, 0]) := by
  constructor
  · have h := (filter_chain_order (fun w _ _ => w) (fun w _ _ => w) (fun _ => 1)
      ⟨80, 10000, -150, false⟩ [1, 2] 24000).1 (by norm_num)
    simpa using h
  · have h2 := (filter_chain_order (fun w _ _ => w) (fun w _ _ => w) (fun _ => 1)
      ⟨80, 10000, -45, true⟩ [0, 0] 24000).2.1 (by norm_num)
    have h4 := (filter_chain_order (fun w _ _ => w) (fun w _ _ => w) (fun _ => 1)
      ⟨80, 10000, -45, true⟩ [0, 0] 24000).2.2.2 (by
        show maxAbs [0, 0] = 0
        decide)
    rw [h2]
    simp only [if_pos rfl]
    show apply_normalize 1 (apply_noise_gate 1 [0, 0]) = [0, 0]
    have hg : apply_noise_gate 1 [0, 0] = [0, 0] := by
      simp [apply_noise_gate, gateMask, smoothMask, windowAvg]
    rw [hg]
    exact h4

/-- The observable bookkeeping state of the `ModelCache` singleton
(src/core/cache.py): the set of cached keys (`_models`, instances
opaque), the per-key last-access timestamps (`_last_access`) and the
idle timeout (`_timeout_seconds`).  Timestamps are exact rationals
standing for `time.time()` floats. -/
structure CacheState where
  models : List String
  lastAccess : List (String × ℚ)
  timeoutSeconds : ℚ

/-- Ordered-dict assignment `d[k] = v`: replace in place, else append. -/
def setKey : List (String × ℚ) → String → ℚ → List (String × ℚ)
  | [], k, v => [(k, v)]
  | p :: l, k, v => if p.1 = k then (k, v) :: l else p :: setKey l k v

/-- Ordered-dict lookup. -/
def lookupA (l : List (String × ℚ)) (k : String) : Option ℚ :=
  (l.find? (fun p => p.1 = k)).map Prod.snd

namespace ModelCache

/-- `ModelCache.get` (src/core/cache.py lines 32-38): refresh the
access time when the key is cached, otherwise leave the state alone. -/
def get (st : CacheState) (key : String) (now : ℚ) : CacheState :=
  if key ∈ st.models then { st with lastAccess := setKey st.lastAccess key now }
  else st

/-- `ModelCache.set` (src/core/cache.py lines 40-45): store the model
and record the access time (the cleanup thread start is modelled by
sweep events). -/
def set (st : CacheState) (key : String) (now : ℚ) : CacheState :=
  { st with
    models := if key ∈ st.models then st.models else st.models ++ [key]
    lastAccess := setKey st.lastAccess key now }

/-- `ModelCache.has` (src/core/cache.py lines 47-49). -/
def has (st : CacheState) (key : String) : Bool :=
  decide (key ∈ st.models)

/-- `ModelCache.clear(key)` for a single key (src/core/cache.py lines
51-57): drop the model and its access timestamp when present. -/
def clear_key (st : CacheState) (key : String) : CacheState :=
  if key ∈ st.models then
    { st with
      models := st.models.filter (fun k => k ≠ key)
      lastAccess := st.lastAccess.filter (fun p => p.1 ≠ key) }
  else st

/-- `ModelCache._check_and_cleanup` (src/core/cache.py lines 89-105):
do nothing when the timeout is non-positive, otherwise clear every key
whose idle time strictly exceeds the timeout. -/
def check_and_cleanup (st : CacheState) (now : ℚ) : CacheState :=
  if st.timeoutSeconds ≤ 0 then st
  else
    ((st.lastAccess.filter
        (fun p => st.timeoutSeconds < now - p.2)).map Prod.fst).foldl
      clear_key st

/-- The `timeout_seconds` setter (src/core/cache.py lines 128-130):
clamped at 0, where 0 disables eviction. -/
def set_timeout (st : CacheState) (value : ℚ) : CacheState :=
  { st with timeoutSeconds := max 0 value }

end ModelCache

/-- The cache interactions relevant to idle eviction: accesses, stores
and the periodic background sweep. -/
inductive CacheEvent where
  | get (key : String) (now : ℚ)
  | set (key : String) (now : ℚ)
  | sweep (now : ℚ)

def applyEvent (st : CacheState) : CacheEvent → CacheState
  | .get k now => ModelCache.get st k now
  | .set k now => ModelCache.set st k now
  | .sweep now => ModelCache.check_and_cleanup st now

def applyEvents (st : CacheState) (es : List CacheEvent) : CacheState :=
  es.foldl applyEvent st

/-- An event that neither reads nor stores the given key. -/
def untouched (key : String) : CacheEvent → Prop
  | .get k _ => k ≠ key
  | .set k _ => k ≠ key
  | .sweep _ => True

theorem lookupA_setKey_ne {l : List (String × ℚ)} {k' key : String}
    (h : k' ≠ key) (v : ℚ) : lookupA (setKey l k' v) key = lookupA l key := by
  induction l with
  | nil =>
    simp [setKey, lookupA, List.find?, h]
  | cons p l ih =>
    by_cases hp : p.1 = k'
    · rw [setKey, if_pos hp]
      simp only [lookupA, List.find?]
      have h1 : (decide ((k', v).1 = key)) = false :=
        decide_eq_false (by simpa using h)
      have h2 : (decide (p.1 = key)) = false :=
        decide_eq_false (by rw [hp]; exact h)
      rw [h1, h2]
    · rw [setKey, if_neg hp]
      simp only [lookupA, List.find?]
      cases hd : decide (p.1 = key)
      · simpa [lookupA] using ih
      · rfl

theorem clear_key_timeout (st : CacheState) (k : String) :
    (ModelCache.clear_key st k).timeoutSeconds = st.timeoutSeconds := by
  unfold ModelCache.clear_key
  split <;> rfl

theorem foldl_clear_key_timeout :
    ∀ (ks : List String) (st : CacheState),
      (ks.foldl ModelCache.clear_key st).timeoutSeconds = st.timeoutSeconds := by
  intro ks
  induction ks with
  | nil => intro st; rfl
  | cons k ks ih =>
    intro st
    rw [List.foldl_cons, ih, clear_key_timeout]

theorem applyEvent_timeout (st : CacheState) (e : CacheEvent) :
    (applyEvent st e).timeoutSeconds = st.timeoutSeconds := by
  cases e with
  | get k now =>
    simp only [applyEvent, ModelCache.get]
    split <;> rfl
  | set k now => rfl
  | sweep now =>
    simp only [applyEvent, ModelCache.check_and_cleanup]
    split
    · rfl
    · rw [foldl_clear_key_timeout]

theorem not_mem_clear_key {st : CacheState} {key : String} (k : String)
    (h : key ∉ st.models) : key ∉ (ModelCache.clear_key st k).models := by
  unfold ModelCache.clear_key
  split
  · intro hmem
    exact h (List.mem_of_mem_filter hmem)
  · exact h

theorem not_mem_clear_key_self (st : CacheState) (key : String) :
    key ∉ (ModelCache.clear_key st key).models := by
  unfold ModelCache.clear_key
  split
  · intro hmem
    have := List.of_mem_filter hmem
    simp at this
  · next h => exact h

theorem clear_key_ne_models {st : CacheState} {key k' : String}
    (h : k' ≠ key) : (key ∈ (ModelCache.clear_key st k').models ↔ key ∈ st.models) := by
  unfold ModelCache.clear_key
  split
  · constructor
    · exact fun hm => List.mem_of_mem_filter hm
    · intro hm
      refine List.mem_filter.mpr ⟨hm, ?_⟩
      exact decide_eq_true (fun hk => h hk.symm)
  · exact Iff.rfl

theorem lookupA_filter_ne {k' key : String} (h : k' ≠ key) :
    ∀ l : List (String × ℚ),
      lookupA (l.filter (fun p => p.1 ≠ k')) key = lookupA l key := by
  intro l
  induction l with
  | nil => rfl
  | cons p l ih =>
    rw [List.filter_cons]
    by_cases hpk : p.1 = k'
    · rw [if_neg (by simp [hpk]), ih]
      simp only [lookupA, List.find?]
      rw [show (decide (p.1 = key)) = false from
        decide_eq_false (by rw [hpk]; exact h)]
    · rw [if_pos (by simp [hpk])]
      simp only [lookupA, List.find?]
      cases hd : decide (p.1 = key)
      · simpa [lookupA] using ih
      · rfl

theorem clear_key_ne_lookup {st : CacheState} {key k' : String}
    (h : k' ≠ key) :
    lookupA (ModelCache.clear_key st k').lastAccess key =
      lookupA st.lastAccess key := by
  unfold ModelCache.clear_key
  split
  · exact lookupA_filter_ne h st.lastAccess
  · rfl

theorem foldl_clear_key_absent {key : String} :
    ∀ (ks : List String) (st : CacheState), key ∉ st.models →
      key ∉ (ks.foldl ModelCache.clear_key st).models := by
  intro ks
  induction ks with
  | nil => intro st h; exact h
  | cons k ks ih =>
    intro st h
    rw [List.foldl_cons]
    exact ih _ (not_mem_clear_key k h)

theorem foldl_clear_key_mem {key : String} :
    ∀ (ks : List String) (st : CacheState), key ∈ ks →
      key ∉ (ks.foldl ModelCache.clear_key st).models := by
  intro ks
  induction ks with
  | nil => intro st h; cases h
  | cons k ks ih =>
    intro st h
    rw [List.foldl_cons]
    rcases List.mem_cons.mp h with rfl | h
    · exact foldl_clear_key_absent ks _ (not_mem_clear_key_self st key)
    · exact ih _ h

theorem foldl_clear_key_not_mem {key : String} :
    ∀ (ks : List String) (st : CacheState), key ∉ ks →
      (key ∈ (ks.foldl ModelCache.clear_key st).models ↔ key ∈ st.models) ∧
        lookupA (ks.foldl ModelCache.clear_key st).lastAccess key =
          lookupA st.lastAccess key := by
  intro ks
  induction ks with
  | nil => intro st _; exact ⟨Iff.rfl, rfl⟩
  | cons k ks ih =>
    intro st h
    have hk : k ≠ key := fun hk => h (hk ▸ List.mem_cons_self k ks)
    have hks : key ∉ ks := fun hks => h (List.mem_cons_of_mem k hks)
    rw [List.foldl_cons]
    refine ⟨?_, ?_⟩
    · rw [(ih _ hks).1, clear_key_ne_models hk]
    · rw [(ih _ hks).2, clear_key_ne_lookup hk]

/-- The key either is already gone or still carries its old timestamp. -/
def keyIntact (key : String) (t : ℚ) (st : CacheState) : Prop :=
  key ∉ st.models ∨ lookupA st.lastAccess key = some t

theorem keyIntact_step {st : CacheState} {key : String} {t : ℚ}
    {e : CacheEvent} (he : untouched key e) (hst : keyIntact key t st) :
    keyIntact key t (applyEvent st e) := by
  cases e with
  | get k now =>
    simp only [applyEvent, ModelCache.get]
    split
    · rcases hst with h | h
      · exact Or.inl h
      · exact Or.inr ((lookupA_setKey_ne he now).trans h)
    · exact hst
  | set k now =>
    simp only [applyEvent, ModelCache.set]
    rcases hst with h | h
    · refine Or.inl ?_
      split
      · exact h
      · intro hmem
        rcases List.mem_append.mp hmem with h1 | h1
        · exact h h1
        · exact he (List.mem_singleton.mp h1).symm
    · exact Or.inr ((lookupA_setKey_ne he now).trans h)
  | sweep now =>
    simp only [applyEvent, ModelCache.check_and_cleanup]
    split
    · exact hst
    · set ks := (st.lastAccess.filter
        (fun p => st.timeoutSeconds < now - p.2)).map Prod.fst with hks
      rcases hst with h | h
      · exact Or.inl (foldl_clear_key_absent ks st h)
      · by_cases hmem : key ∈ ks
        · exact Or.inl (foldl_clear_key_mem ks st hmem)
        · exact Or.inr (((foldl_clear_key_not_mem ks st hmem).2).trans h)

theorem keyIntact_events {key : String} {t : ℚ} :
    ∀ (es : List CacheEvent) (st : CacheState), (∀ e ∈ es, untouched key e) →
      keyIntact key t st → keyIntact key t (applyEvents st es) := by
  intro es
  induction es with
  | nil => intro st _ h; exact h
  | cons e es ih =>
    intro st hes h
    rw [applyEvents, List.foldl_cons]
    exact ih _ (fun x hx => hes x (List.mem_cons_of_mem e hx))
      (keyIntact_step (hes e (List.mem_cons_self e es)) h)

theorem timeout_events :
    ∀ (es : List CacheEvent) (st : CacheState),
      (applyEvents st es).timeoutSeconds = st.timeoutSeconds := by
  intro es
  induction es with
  | nil => intro st; rfl
  | cons e es ih =>
    intro st
    rw [applyEvents, List.foldl_cons]
    rw [show List.foldl applyEvent (applyEvent st e) es =
      applyEvents (applyEvent st e) es from rfl, ih, applyEvent_timeout]

theorem sweep_evicts {st : CacheState} {key : String} {t now : ℚ}
    (htimeout : 0 < st.timeoutSeconds) (hintact : keyIntact key t st)
    (hidle : st.timeoutSeconds < now - t) :
    ModelCache.has (ModelCache.check_and_cleanup st now) key = false := by
  unfold ModelCache.check_and_cleanup
  rw [if_neg (not_le.mpr htimeout)]
  rw [ModelCache.has, decide_eq_false_iff_not]
  rcases hintact with h | h
  · exact foldl_clear_key_absent _ st h
  · apply foldl_clear_key_mem
    have hfind := h
    unfold lookupA at hfind
    rcases hf : st.lastAccess.find? (fun p => p.1 = key) with _ | p
    · rw [hf] at hfind; cases hfind
    · rw [hf] at hfind
      have hp1 : p.1 = key := by
        have := List.find?_some hf
        simpa using this
      have hp2 : p.2 = t := by simpa using hfind
      have hpmem : p ∈ st.lastAccess := List.mem_of_find?_eq_some hf
      rw [← hp1]
      refine List.mem_map.mpr ⟨p, ?_, rfl⟩
      refine List.mem_filter.mpr ⟨hpmem, ?_⟩
      rw [hp2]
      simpa using hidle

/-- C3: (a) if a key's last access was at time `t`, the timeout is
positive, and the key is neither read nor stored afterwards, then after
the background sweep that runs once more than `timeout` seconds of idle
time have elapsed, `has(key)` reports the key evicted; (b) with the
timeout set to 0 the idle sweep never evicts, no matter how long the
key stays idle. -/
theorem cache_idle_eviction :
    (∀ (st : CacheState) (key : String) (t : ℚ) (es : List CacheEvent)
        (now : ℚ),
      0 < st.timeoutSeconds →
      lookupA st.lastAccess key = some t →
      (∀ e ∈ es, untouched key e) →
      st.timeoutSeconds < now - t →
      ModelCache.has
        (applyEvents st (es ++ [CacheEvent.sweep now])) key = false) ∧
    (∀ (st : CacheState) (key : String) (nows : List ℚ),
      ModelCache.has st key = true →
      ModelCache.has
        (applyEvents (ModelCache.set_timeout st 0)
          (nows.map CacheEvent.sweep)) key = true) := by
  constructor
  · intro st key t es now htimeout hlook hes hidle
    rw [applyEvents, List.foldl_append]
    rw [show List.foldl applyEvent st es = applyEvents st es from rfl]
    rw [List.foldl_cons, List.foldl_nil]
    have hT := timeout_events es st
    have hintact : keyIntact key t (applyEvents st es) :=
      keyIntact_events es st hes (Or.inr hlook)
    exact sweep_evicts (by rw [hT]; exact htimeout) hintact
      (by rw [hT]; exact hidle)
  · intro st key nows h
    have hstable : ∀ (ms : List ℚ) (s : CacheState), s.timeoutSeconds ≤ 0 →
        applyEvents s (ms.map CacheEvent.sweep) = s := by
      intro ms
      induction ms with
      | nil => intro s _; rfl
      | cons m ms ih =>
        intro s hs
        rw [List.map_cons, applyEvents, List.foldl_cons]
        have hsweep : applyEvent s (CacheEvent.sweep m) = s := by
          simp only [applyEvent, ModelCache.check_and_cleanup]
          rw [if_pos hs]
        rw [hsweep]
        exact ih s hs
    rw [hstable nows (ModelCache.set_timeout st 0) (by simp [ModelCache.set_timeout])]
    exact h

theorem cache_idle_eviction_witness :
    ModelCache.has
        (applyEvents ⟨["tts"], [("tts", 10)], 600⟩
          ([CacheEvent.get "other" 500] ++ [CacheEvent.sweep 1000])) "tts" = false ∧
      ModelCache.has
        (applyEvents (ModelCache.set_timeout ⟨["tts"], [("tts", 10)], 600⟩ 0)
          ([(2000 : ℚ), 100000].map CacheEvent.sweep)) "tts" = true := by
  constructor
  · refine cache_idle_eviction.1 ⟨["tts"], [("tts", 10)], 600⟩ "tts" 10
      [CacheEvent.get "other" 500] 1000 (by norm_num) (by decide) ?_ (by norm_num)
    intro e he
    rcases List.mem_singleton.mp he with rfl
    simp [untouched]
  · exact cache_idle_eviction.2 ⟨["tts"], [("tts", 10)], 600⟩ "tts"
      [2000, 100000] (by decide)

/-- Outcome of one invocation of the external synthesis resource
(`tts.generate`): a produced segment, a transient `RuntimeError`, or
any other exception. -/
inductive GenOutcome where
  | ok (seg : List ℚ)
  | runtimeError (msg : String)
  | otherError (msg : String)

/-- The external synthesis resource.  `generate` is deterministic in
the seed installed through `torch.manual_seed` immediately before the
call and in the chunk text; the per-job generation parameters
(language id, reference audio, exaggeration, cfg weight) are fixed over
a job and absorbed into the function. -/
structure TTSModel where
  generate : ℕ → List Char → GenOutcome
  sr : ℕ

/-- The per-chunk retry loop `for attempt in range(3)` of
`process_tts_job` (src/api.py lines 115-134), unrolled: attempt `a`
seeds the resource with `chunk_seed + a * 100`; a success breaks out; a
`RuntimeError` retries, and on the third `RuntimeError` the chunk is
replaced by `torch.zeros(1, int(tts.sr * 0.5))`; any other exception
escapes the loop.  The second component is the trace of seeds actually
installed, one per attempt. -/
def generate_with_retries (tts : TTSModel) (chunk_seed : ℕ)
    (chunk : List Char) : Except String (List ℚ) × List ℕ :=
  match tts.generate chunk_seed chunk with
  | .ok seg => (.ok seg, [chunk_seed])
  | .otherError m => (.error m, [chunk_seed])
  | .runtimeError _ =>
    match tts.generate (chunk_seed + 100) chunk with
    | .ok seg => (.ok seg, [chunk_seed, chunk_seed + 100])
    | .otherError m => (.error m, [chunk_seed, chunk_seed + 100])
    | .runtimeError _ =>
      match tts.generate (chunk_seed + 200) chunk with
      | .ok seg => (.ok seg, [chunk_seed, chunk_seed + 100, chunk_seed + 200])
      | .otherError m =>
        (.error m, [chunk_seed, chunk_seed + 100, chunk_seed + 200])
      | .runtimeError _ =>
        (.ok (List.replicate (tts.sr / 2) 0),
          [chunk_seed, chunk_seed + 100, chunk_seed + 200])

/-- Job lifecycle states (src/api.py lines 38-42). -/
inductive JobStatus where
  | pending
  | processing
  | completed
  | failed
deriving DecidableEq

/-- The chunk loop of `process_tts_job` (src/api.py lines 111-137):
write the per-chunk progress `(i / total_chunks) * 0.8`, run the retry
loop, collect segments in order; a non-transient error aborts the
loop.  Returns the progress writes made and either the segments or the
escaping error message. -/
def run_chunks (tts : TTSModel) (actual_seed total : ℕ) :
    List (List Char) → ℕ → List ℚ × Except String (List (List ℚ))
  | [], _ => ([], .ok [])
  | c :: cs, i =>
    let w : ℚ := (i : ℚ) / (total : ℚ) * (4 / 5)
    match (generate_with_retries tts (actual_seed + i) c).1 with
    | .error m => ([w], .error m)
    | .ok seg =>
      let (ws, r) := run_chunks tts actual_seed total cs (i + 1)
      (w :: ws, r.map (seg :: ·))

/-- The supported language codes (src/core/constants.py `LANGUAGES`). -/
def LANGUAGES_keys : List String :=
  ["tr", "en", "de", "fr", "es", "it", "pt", "ru", "zh", "ja", "ko", "ar"]

/-- The collaborators `process_tts_job` drives, as opaque parameters:
the synthesis resource, the Turkish text normalizer
(src/core/normalizer.py, irrelevant to the claims settled here), the
torchaudio biquads and float dB conversion, the persistence step
(`os.makedirs` + `ta.save`, which may raise), the lazy resource load
`state.tts_model` (which may raise before any chunk is processed), the
output naming inputs,
and the value drawn by `random.randint(0, 999999)` when no seed is
given. -/
structure JobEnv where
  tts : TTSModel
  normalize_text : List Char → List Char
  hp : List ℚ → ℕ → ℚ → List ℚ
  lp : List ℚ → ℕ → ℚ → List ℚ
  dbToLinear : ℚ → ℚ
  audio_config : AudioConfig
  save : List ℚ → Except String Unit
  load_model : Except String Unit
  outputs_dir : String
  job_id : String
  timestamp : String
  rng : ℕ

/-- The request parameters of a job that the modelled control flow
depends on (preset / exaggeration / cfg weight are absorbed into
`tts.generate`). -/
structure JobParams where
  text : List Char
  language : String
  seed : ℤ

/-- The observable outcome of one job: terminal status, every value
written to `job.progress` in order (`0.0` from `Job.__init__`
included), and the result/error fields. -/
structure JobResult where
  status : JobStatus
  progressWrites : List ℚ
  result_path : Option String
  error : Option String

/-- `actual_seed = seed if seed >= 0 else random.randint(0, 999999)`
(src/api.py line 96). -/
def job_seed (env : JobEnv) (params : JobParams) : ℕ :=
  if 0 ≤ params.seed then params.seed.toNat else env.rng

/-- The chunk list of a job (src/api.py lines 100-105): fall back to
language `"tr"` for unknown codes, normalize Turkish text, then split
with `max_chars = 200`. -/
def job_chunks (env : JobEnv) (params : JobParams) : List (List Char) :=
  let lang_code := if params.language ∈ LANGUAGES_keys then params.language else "tr"
  let text := if lang_code = "tr" then env.normalize_text (trim params.text)
    else trim params.text
  split_into_sentences text 200

/-- The output path `os.path.join(state.outputs_dir,
f"job_{job.id}_{timestamp}.wav")` (src/api.py lines 154-155). -/
def job_filepath (env : JobEnv) : String :=
  env.outputs_dir ++ "/" ++ ("job_" ++ env.job_id ++ "_" ++ env.timestamp ++ ".wav")

/-- `process_tts_job` (src/api.py lines 77-178): run the chunk loop,
merge, post-process, persist; on success mark Completed with the result
path and progress 1.0; any escaping exception marks the job Failed with
the exception's message (`str(e)`).  The progress writes 0.85 and 0.9
happen before merging and post-processing respectively. -/
def process_tts_job (env : JobEnv) (params : JobParams) : JobResult :=
  match env.load_model with
  | .error m =>
    { status := .failed, progressWrites := [0]
      result_path := none, error := some m }
  | .ok _ =>
  let chunks := job_chunks env params
  let total := chunks.length
  let (ws, r) := run_chunks env.tts (job_seed env params) total chunks 0
  match r with
  | .error m =>
    { status := .failed, progressWrites := 0 :: ws
      result_path := none, error := some m }
  | .ok segs =>
    match segs with
    | [] =>
      -- `audio_segments[0]` on an empty list raises IndexError, caught
      -- by the outer handler; unreachable in practice since every chunk
      -- yields a segment.
      { status := .failed, progressWrites := 0 :: ws ++ [17 / 20]
        result_path := none, error := some "list index out of range" }
    | s0 :: rest =>
      let wav := if 1 < (s0 :: rest).length then
          merge_audio_with_crossfade (s0 :: rest) env.tts.sr 150 30
        else s0
      let wav2 := AudioProcessor.process env.hp env.lp env.dbToLinear
        env.audio_config wav env.tts.sr
      match env.save wav2 with
      | .error m =>
        { status := .failed, progressWrites := 0 :: ws ++ [17 / 20, 9 / 10]
          result_path := none, error := some m }
      | .ok _ =>
        { status := .completed
          progressWrites := 0 :: ws ++ [17 / 20, 9 / 10, 1]
          result_path := some (job_filepath env), error := none }

theorem split_into_sentences_ne_nil (text : List Char) (m : ℕ) :
    split_into_sentences text m ≠ [] := by
  unfold split_into_sentences finalizeChunks
  split
  · simp
  · next h => exact h

/-- The per-chunk progress value `(i / total_chunks) * 0.8`. -/
def chunkProgress (total j : ℕ) : ℚ :=
  (j : ℚ) / (total : ℚ) * (4 / 5)

theorem chunkProgress_mono (total : ℕ) {j j' : ℕ} (h : j ≤ j') :
    chunkProgress total j ≤ chunkProgress total j' := by
  unfold chunkProgress
  apply mul_le_mul_of_nonneg_right _ (by norm_num)
  rcases Nat.eq_zero_or_pos total with h0 | h0
  · simp [h0]
  · have ht : (0 : ℚ) < total := by exact_mod_cast h0
    exact (div_le_div_iff_of_pos_right ht).mpr (by exact_mod_cast h)

theorem chunkProgress_bounds {total j : ℕ} (hj : j < total) :
    0 ≤ chunkProgress total j ∧ chunkProgress total j ≤ 17 / 20 := by
  have ht : (0 : ℚ) < total := by exact_mod_cast Nat.pos_of_ne_zero (by omega)
  constructor
  · unfold chunkProgress
    positivity
  · have h1 : (j : ℚ) / total ≤ 1 :=
      (div_le_one ht).mpr (by exact_mod_cast le_of_lt hj)
    unfold chunkProgress
    calc (j : ℚ) / total * (4 / 5) ≤ 1 * (4 / 5) :=
          mul_le_mul_of_nonneg_right h1 (by norm_num)
      _ ≤ 17 / 20 := by norm_num

theorem run_chunks_writes (tts : TTSModel) (seed total : ℕ) :
    ∀ (cs : List (List Char)) (i : ℕ), ∃ k, k ≤ cs.length ∧
      (run_chunks tts seed total cs i).1 =
        (List.range' i k).map (chunkProgress total) := by
  intro cs
  induction cs with
  | nil => intro i; exact ⟨0, Nat.zero_le _, rfl⟩
  | cons c cs ih =>
    intro i
    rw [run_chunks]
    rcases hgen : (generate_with_retries tts (seed + i) c).1 with m | seg
    · refine ⟨1, by rw [List.length_cons]; omega, ?_⟩
      show [(i : ℚ) / (total : ℚ) * (4 / 5)] = _
      rfl
    · rcases ih (i + 1) with ⟨k, hk, hws⟩
      refine ⟨k + 1, by rw [List.length_cons]; omega, ?_⟩
      show (i : ℚ) / (total : ℚ) * (4 / 5) :: (run_chunks tts seed total cs (i + 1)).1 = _
      rw [hws]
      rfl

theorem chain_chunkProgress (total : ℕ) :
    ∀ (k i : ℕ), List.Chain' (· ≤ ·)
      ((List.range' i k).map (chunkProgress total)) := by
  intro k
  induction k with
  | zero => intro i; exact List.chain'_nil
  | succ k ih =>
    intro i
    show List.Chain' _ ((i :: List.range' (i + 1) k).map (chunkProgress total))
    rw [List.map_cons, List.chain'_cons']
    refine ⟨?_, ih (i + 1)⟩
    intro y hy
    have hmem : y ∈ (List.range' (i + 1) k).map (chunkProgress total) :=
      List.mem_of_mem_head? hy
    rcases List.mem_map.mp hmem with ⟨j, hj, rfl⟩
    have h1 := (List.mem_range'_1.mp hj).1
    exact chunkProgress_mono total (by omega)

theorem progress_writes_good {ws suffix : List ℚ}
    (hchain : List.Chain' (· ≤ ·) ws)
    (hbound : ∀ p ∈ ws, 0 ≤ p ∧ p ≤ 17 / 20)
    (hsufchain : List.Chain' (· ≤ ·) suffix)
    (hsufbound : ∀ p ∈ suffix, 17 / 20 ≤ p ∧ p ≤ 1) :
    List.Chain' (· ≤ ·) (0 :: ws ++ suffix) ∧
      ∀ p ∈ 0 :: ws ++ suffix, 0 ≤ p ∧ p ≤ 1 := by
  constructor
  · show List.Chain' (· ≤ ·) ((0 :: ws) ++ suffix)
    rw [List.chain'_append]
    refine ⟨?_, hsufchain, ?_⟩
    · rw [List.chain'_cons']
      refine ⟨?_, hchain⟩
      intro y hy
      exact (hbound y (List.mem_of_mem_head? hy)).1
    · intro x hx y hy
      have hy' : 17 / 20 ≤ y := (hsufbound y (List.mem_of_mem_head? hy)).1
      rcases List.mem_cons.mp (List.mem_of_mem_getLast? hx) with rfl | hx'
      · calc (0 : ℚ) ≤ 17 / 20 := by norm_num
          _ ≤ y := hy'
      · calc x ≤ 17 / 20 := (hbound x hx').2
          _ ≤ y := hy'
  · intro p hp
    rcases List.mem_cons.mp hp with rfl | hp'
    · norm_num
    · rcases List.mem_append.mp hp' with h | h
      · have := hbound p h
        constructor
        · exact this.1
        · calc p ≤ 17 / 20 := this.2
            _ ≤ 1 := by norm_num
      · have := hsufbound p h
        constructor
        · calc (0 : ℚ) ≤ 17 / 20 := by norm_num
            _ ≤ p := this.1
        · exact this.2

theorem process_tts_job_writes (env : JobEnv) (params : JobParams) :
    ∃ suffix : List ℚ, List.Chain' (· ≤ ·) suffix ∧
      (∀ p ∈ suffix, 17 / 20 ≤ p ∧ p ≤ 1) ∧
      ((process_tts_job env params).progressWrites =
          0 :: (run_chunks env.tts (job_seed env params)
            (job_chunks env params).length (job_chunks env params) 0).1 ++
            suffix ∨
        (process_tts_job env params).progressWrites = [0]) := by
  rcases hload : env.load_model with u | mu
  · exact ⟨[], List.chain'_nil, by simp,
      Or.inr (by simp only [process_tts_job, hload])⟩
  · rcases he : run_chunks env.tts (job_seed env params)
        (job_chunks env params).length (job_chunks env params) 0 with ⟨ws, r⟩
    rcases r with m | segs
    · refine ⟨[], List.chain'_nil, by simp, Or.inl ?_⟩
      simp only [process_tts_job, hload, he]
      simp
    · rcases segs with _ | ⟨s0, rest⟩
      · refine ⟨[17 / 20], List.chain'_singleton _, ?_, Or.inl ?_⟩
        · intro p hp
          rcases List.mem_singleton.mp hp with rfl
          norm_num
        · simp only [process_tts_job, hload, he]
      · rcases hsave : env.save (AudioProcessor.process env.hp env.lp
            env.dbToLinear env.audio_config (if 1 < (s0 :: rest).length then
              merge_audio_with_crossfade (s0 :: rest) env.tts.sr 150 30 else s0)
            env.tts.sr) with u2 | m2
        · refine ⟨[17 / 20, 9 / 10], ?_, ?_, Or.inl ?_⟩
          · exact List.chain'_cons.mpr ⟨by norm_num, List.chain'_singleton _⟩
          · intro p hp
            rcases List.mem_cons.mp hp with rfl | hp'
            · norm_num
            · rcases List.mem_singleton.mp hp' with rfl
              norm_num
          · simp only [process_tts_job, hload, he, hsave]
        · refine ⟨[17 / 20, 9 / 10, 1], ?_, ?_, Or.inl ?_⟩
          · exact List.chain'_cons.mpr ⟨by norm_num,
              List.chain'_cons.mpr ⟨by norm_num, List.chain'_singleton _⟩⟩
          · intro p hp
            rcases List.mem_cons.mp hp with rfl | hp'
            · norm_num
            · rcases List.mem_cons.mp hp' with rfl | hp''
              · norm_num
              · rcases List.mem_singleton.mp hp'' with rfl
                norm_num
          · simp only [process_tts_job, hload, he, hsave]

/-- C7: over a job's whole lifetime — creation, per-chunk updates, the
0.85/0.9 assembly marks, completion, and the failure paths — the
sequence of values written to `job.progress` is monotonically
non-decreasing and stays within `[0, 1]`. -/
theorem job_progress_monotone (env : JobEnv) (params : JobParams) :
    List.Chain' (· ≤ ·) (process_tts_job env params).progressWrites ∧
      ∀ p ∈ (process_tts_job env params).progressWrites, 0 ≤ p ∧ p ≤ 1 := by
  rcases process_tts_job_writes env params with
    ⟨suffix, hsufchain, hsufbound, hcase | hcase⟩
  · rcases run_chunks_writes env.tts (job_seed env params)
        (job_chunks env params).length (job_chunks env params) 0 with ⟨k, hk, hws⟩
    rw [hcase, hws]
    refine progress_writes_good ?_ ?_ hsufchain hsufbound
    · exact chain_chunkProgress _ k 0
    · intro p hp
      rcases List.mem_map.mp hp with ⟨j, hj, rfl⟩
      have hjk := List.mem_range'_1.mp hj
      exact chunkProgress_bounds (by omega)
  · rw [hcase]
    constructor
    · exact List.chain'_singleton 0
    · intro p hp
      rcases List.mem_singleton.mp hp with rfl
      norm_num

theorem generate_with_retries_trace (tts : TTSModel) (s : ℕ) (c : List Char) :
    (generate_with_retries tts s c).2.length ≤ 3 ∧
      ∀ a v, (generate_with_retries tts s c).2[a]? = some v →
        v = s + a * 100 := by
  have h1 : ∀ a v, ([s] : List ℕ)[a]? = some v → v = s + a * 100 := by
    intro a v h
    match a with
    | 0 => simp at h; omega
    | a + 1 => simp at h
  have h2 : ∀ a v, ([s, s + 100] : List ℕ)[a]? = some v → v = s + a * 100 := by
    intro a v h
    match a with
    | 0 => simp at h; omega
    | 1 => simp at h; omega
    | a + 2 => simp at h
  have h3 : ∀ a v, ([s, s + 100, s + 200] : List ℕ)[a]? = some v →
      v = s + a * 100 := by
    intro a v h
    match a with
    | 0 => simp at h; omega
    | 1 => simp at h; omega
    | 2 => simp at h; omega
    | a + 3 => simp at h
  rcases ha : tts.generate s c with seg | m | m
  · exact ⟨by simp [generate_with_retries, ha], by
      simpa [generate_with_retries, ha] using h1⟩
  · rcases hb : tts.generate (s + 100) c with seg | m' | m'
    · exact ⟨by simp [generate_with_retries, ha, hb], by
        simpa [generate_with_retries, ha, hb] using h2⟩
    · rcases hc : tts.generate (s + 200) c with seg | m'' | m''
      · exact ⟨by simp [generate_with_retries, ha, hb, hc], by
          simpa [generate_with_retries, ha, hb, hc] using h3⟩
      · exact ⟨by simp [generate_with_retries, ha, hb, hc], by
          simpa [generate_with_retries, ha, hb, hc] using h3⟩
      · exact ⟨by simp [generate_with_retries, ha, hb, hc], by
          simpa [generate_with_retries, ha, hb, hc] using h3⟩
    · exact ⟨by simp [generate_with_retries, ha, hb], by
        simpa [generate_with_retries, ha, hb] using h2⟩
  · exact ⟨by simp [generate_with_retries, ha], by
      simpa [generate_with_retries, ha] using h1⟩

theorem generate_with_retries_fallback (tts : TTSModel) (s : ℕ) (c : List Char)
    (h0 : ∃ m, tts.generate s c = .runtimeError m)
    (h1 : ∃ m, tts.generate (s + 100) c = .runtimeError m)
    (h2 : ∃ m, tts.generate (s + 200) c = .runtimeError m) :
    (generate_with_retries tts s c).1 = .ok (List.replicate (tts.sr / 2) 0) := by
  rcases h0 with ⟨m0, h0⟩
  rcases h1 with ⟨m1, h1⟩
  rcases h2 with ⟨m2, h2⟩
  simp [generate_with_retries, h0, h1, h2]

theorem generate_with_retries_error_source {tts : TTSModel} {s : ℕ}
    {c : List Char} {m : String}
    (h : (generate_with_retries tts s c).1 = .error m) :
    ∃ a, a < 3 ∧ tts.generate (s + a * 100) c = .otherError m := by
  rcases ha : tts.generate s c with seg | m' | m'
  · simp [generate_with_retries, ha] at h
  · rcases hb : tts.generate (s + 100) c with seg | m'' | m''
    · simp [generate_with_retries, ha, hb] at h
    · rcases hc : tts.generate (s + 200) c with seg | m3 | m3
      · simp [generate_with_retries, ha, hb, hc] at h
      · simp [generate_with_retries, ha, hb, hc] at h
      · refine ⟨2, by omega, ?_⟩
        have hm : m3 = m := by simpa [generate_with_retries, ha, hb, hc] using h
        rw [show s + 2 * 100 = s + 200 from by omega, hc, hm]
    · refine ⟨1, by omega, ?_⟩
      have hm : m'' = m := by simpa [generate_with_retries, ha, hb] using h
      rw [show s + 1 * 100 = s + 100 from by omega, hb, hm]
  · refine ⟨0, by omega, ?_⟩
    have hm : m' = m := by simpa [generate_with_retries, ha] using h
    rw [show s + 0 * 100 = s from by omega, ha, hm]

theorem generate_with_retries_first_other (tts : TTSModel) (s : ℕ)
    (c : List Char) (m : String) (h : tts.generate s c = .otherError m) :
    (generate_with_retries tts s c).1 = .error m := by
  simp [generate_with_retries, h]

theorem generate_with_retries_ok_of_no_other {tts : TTSModel} {s : ℕ}
    {c : List Char} (h : ∀ seed m, tts.generate seed c ≠ .otherError m) :
    ∃ seg, (generate_with_retries tts s c).1 = .ok seg := by
  rcases hr : (generate_with_retries tts s c).1 with m | seg
  · rcases generate_with_retries_error_source hr with ⟨a, _, ha⟩
    exact absurd ha (h _ m)
  · exact ⟨seg, rfl⟩

theorem run_chunks_ok (tts : TTSModel) (seed total : ℕ) :
    ∀ (cs : List (List Char)) (i : ℕ),
      (∀ ch ∈ cs, ∀ s' m, tts.generate s' ch ≠ .otherError m) →
      ∃ segs, (run_chunks tts seed total cs i).2 = .ok segs ∧
        segs.length = cs.length := by
  intro cs
  induction cs with
  | nil => intro i _; exact ⟨[], rfl, rfl⟩
  | cons c cs ih =>
    intro i hno
    rcases generate_with_retries_ok_of_no_other
        (s := seed + i) (hno c (List.mem_cons_self c cs)) with ⟨seg, hseg⟩
    rcases ih (i + 1) (fun ch hch => hno ch (List.mem_cons_of_mem c hch)) with
      ⟨segs, hsegs, hlen⟩
    rcases hrc : run_chunks tts seed total cs (i + 1) with ⟨ws2, r2⟩
    rw [hrc] at hsegs
    simp only at hsegs
    refine ⟨seg :: segs, ?_, by simp [hlen]⟩
    simp only [run_chunks, hseg, hrc, hsegs]
    rfl

theorem run_chunks_error_source (tts : TTSModel) (seed total : ℕ) :
    ∀ (cs : List (List Char)) (i : ℕ) (m : String),
      (run_chunks tts seed total cs i).2 = .error m →
      ∃ s' ch, tts.generate s' ch = .otherError m := by
  intro cs
  induction cs with
  | nil => intro i m h; simp [run_chunks] at h
  | cons c cs ih =>
    intro i m h
    rcases hg : (generate_with_retries tts (seed + i) c).1 with m' | seg
    · have hval : (run_chunks tts seed total (c :: cs) i).2 = .error m' := by
        simp [run_chunks, hg]
      rw [hval] at h
      have hm : m' = m := by simpa using h
      subst hm
      rcases generate_with_retries_error_source hg with ⟨a, _, hval2⟩
      exact ⟨seed + i + a * 100, c, hval2⟩
    · rcases hrc : run_chunks tts seed total cs (i + 1) with ⟨ws2, r2⟩
      have hval : (run_chunks tts seed total (c :: cs) i).2 =
          r2.map (seg :: ·) := by
        simp [run_chunks, hg, hrc]
      rw [hval] at h
      rcases r2 with m2 | segs2
      · have hm : m2 = m := by simpa [Except.map] using h
        subst hm
        exact ih (i + 1) m2 (by rw [hrc])
      · simp [Except.map] at h

theorem run_chunks_error_at {tts : TTSModel} {seed total : ℕ} {m : String} :
    ∀ (cs : List (List Char)) (i j : ℕ), j < cs.length →
      (∀ k, k < j → ∃ seg, (generate_with_retries tts (seed + (i + k))
        (cs.getD k [])).1 = .ok seg) →
      (generate_with_retries tts (seed + (i + j)) (cs.getD j [])).1 = .error m →
      (run_chunks tts seed total cs i).2 = .error m := by
  intro cs
  induction cs with
  | nil => intro i j hj; simp at hj
  | cons c cs ih =>
    intro i j hj hok herr
    match j with
    | 0 =>
      have herr' : (generate_with_retries tts (seed + i) c).1 = .error m := by
        simpa using herr
      simp [run_chunks, herr']
    | j + 1 =>
      rcases hok 0 (by omega) with ⟨seg, hseg⟩
      have hseg' : (generate_with_retries tts (seed + i) c).1 = .ok seg := by
        simpa using hseg
      rcases hrc : run_chunks tts seed total cs (i + 1) with ⟨ws2, r2⟩
      have hval : (run_chunks tts seed total (c :: cs) i).2 =
          r2.map (seg :: ·) := by
        simp [run_chunks, hseg', hrc]
      have hlen : j < cs.length := by
        rw [List.length_cons] at hj; omega
      have hok2 : ∀ k, k < j → ∃ sg, (generate_with_retries tts
          (seed + (i + 1 + k)) (cs.getD k [])).1 = .ok sg := by
        intro k hk
        rcases hok (k + 1) (by omega) with ⟨sg, hsg⟩
        refine ⟨sg, ?_⟩
        have harith : i + (k + 1) = i + 1 + k := by omega
        rw [← harith]
        simpa using hsg
      have herr2 : (generate_with_retries tts (seed + (i + 1 + j))
          (cs.getD j [])).1 = .error m := by
        have harith : i + (j + 1) = i + 1 + j := by omega
        rw [← harith]
        simpa using herr
      have hind := ih (i + 1) j hlen hok2 herr2
      rw [hrc] at hind
      have hr2 : r2 = .error m := hind
      rw [hval, hr2]
      rfl

/-- C2: for chunk `i` of a job with base seed `s`, at most 3 generation
attempts are made, attempt `a` installs seed `s + i + a * 100` before
invoking the resource, three transient failures replace the chunk by a
0.5-second silent segment at the resource's sample rate, and when no
non-transient error and no persistence error occur the job still
reaches Completed. -/
theorem chunk_retry_policy (tts : TTSModel) (s i : ℕ) (c : List Char)
    (env : JobEnv) (params : JobParams) :
    ((generate_with_retries tts (s + i) c).2.length ≤ 3 ∧
      ∀ a v, (generate_with_retries tts (s + i) c).2[a]? = some v →
        v = s + i + a * 100) ∧
    ((∃ m0, tts.generate (s + i) c = .runtimeError m0) →
     (∃ m1, tts.generate (s + i + 100) c = .runtimeError m1) →
     (∃ m2, tts.generate (s + i + 200) c = .runtimeError m2) →
      (generate_with_retries tts (s + i) c).1 =
        .ok (List.replicate (tts.sr / 2) 0)) ∧
    ((∀ seed ch m, env.tts.generate seed ch ≠ .otherError m) →
     (∀ w m, env.save w ≠ .error m) →
     env.load_model = .ok () →
      (process_tts_job env params).status = .completed) := by
  refine ⟨generate_with_retries_trace tts (s + i) c,
    generate_with_retries_fallback tts (s + i) c, ?_⟩
  intro hgen hsave hload
  rcases run_chunks_ok env.tts (job_seed env params)
      (job_chunks env params).length (job_chunks env params) 0
      (fun ch _ s' m => hgen s' ch m) with ⟨segs, hsegs, hlen⟩
  rcases hrc : run_chunks env.tts (job_seed env params)
      (job_chunks env params).length (job_chunks env params) 0 with ⟨ws, r⟩
  rw [hrc] at hsegs
  have hr : r = .ok segs := hsegs
  subst hr
  have hne : segs ≠ [] := by
    intro h0
    rw [h0] at hlen
    exact split_into_sentences_ne_nil _ 200 (List.length_eq_zero.mp hlen.symm)
  rcases segs with _ | ⟨s0, rest⟩
  · exact absurd rfl hne
  · rcases hsv : env.save (AudioProcessor.process env.hp env.lp env.dbToLinear
        env.audio_config (if 1 < (s0 :: rest).length then
          merge_audio_with_crossfade (s0 :: rest) env.tts.sr 150 30 else s0)
        env.tts.sr) with me | u2
    · exact absurd hsv (hsave _ me)
    · simp only [process_tts_job, hload, hrc, hsv]

/-- The resource of the concrete retry scenario: every attempt raises a
transient `RuntimeError`. -/
def retryTTS : TTSModel := ⟨fun _ _ => .runtimeError "CUDA error", 24⟩

/-- A concrete job environment whose collaborators all succeed. -/
def retryEnv : JobEnv :=
  { tts := retryTTS
    normalize_text := id
    hp := fun w _ _ => w
    lp := fun w _ _ => w
    dbToLinear := fun _ => 1
    audio_config := ⟨80, 10000, -45, true⟩
    save := fun _ => .ok ()
    load_model := .ok ()
    outputs_dir := "outputs"
    job_id := "abc12345"
    timestamp := "20260101_120000"
    rng := 0 }

/-- A concrete request: the text `"Hi."`, English, base seed 5. -/
def retryParams : JobParams := ⟨['H', 'i', '.'], "en", 5⟩

theorem chunk_retry_policy_witness :
    (generate_with_retries retryTTS (5 + 0) ['H', 'i', '.']).2.length ≤ 3 ∧
    (generate_with_retries retryTTS (5 + 0) ['H', 'i', '.']).1 =
      .ok (List.replicate (retryTTS.sr / 2) 0) ∧
    (process_tts_job retryEnv retryParams).status = .completed := by
  obtain ⟨⟨hlen, _⟩, hfb, hcomp⟩ :=
    chunk_retry_policy retryTTS 5 0 ['H', 'i', '.'] retryEnv retryParams
  exact ⟨hlen, hfb ⟨_, rfl⟩ ⟨_, rfl⟩ ⟨_, rfl⟩,
    hcomp (fun _ _ _ h => nomatch h) (fun _ _ h => nomatch h) rfl⟩

/-- C10: only `RuntimeError` is treated as transient; an `.error`
escaping the retry loop always stems from a non-`RuntimeError` exception
of some attempt, a first-attempt non-`RuntimeError` escapes immediately,
and such an escape marks the whole job Failed with that message even
when every other chunk succeeded. -/
theorem non_transient_error_fails_job (tts : TTSModel) (s : ℕ) (c : List Char)
    (m : String) (env : JobEnv) (params : JobParams) (j : ℕ) :
    ((generate_with_retries tts s c).1 = .error m →
      ∃ a, a < 3 ∧ tts.generate (s + a * 100) c = .otherError m) ∧
    (tts.generate s c = .otherError m →
      (generate_with_retries tts s c).1 = .error m) ∧
    (env.load_model = .ok () →
     j < (job_chunks env params).length →
     (∀ k, k < j → ∃ seg, (generate_with_retries env.tts
        (job_seed env params + k) ((job_chunks env params).getD k [])).1 =
          .ok seg) →
     (generate_with_retries env.tts (job_seed env params + j)
        ((job_chunks env params).getD j [])).1 = .error m →
      (process_tts_job env params).status = .failed ∧
        (process_tts_job env params).error = some m) := by
  refine ⟨fun h => generate_with_retries_error_source h,
    generate_with_retries_first_other tts s c m, ?_⟩
  intro hload hj hok herr
  have hrun : (run_chunks env.tts (job_seed env params)
      (job_chunks env params).length (job_chunks env params) 0).2 =
      .error m := by
    refine run_chunks_error_at (job_chunks env params) 0 j hj ?_ ?_
    · intro k hk
      rcases hok k hk with ⟨seg, hseg⟩
      exact ⟨seg, by simpa using hseg⟩
    · simpa using herr
  rcases hrc : run_chunks env.tts (job_seed env params)
      (job_chunks env params).length (job_chunks env params) 0 with ⟨ws, r⟩
  rw [hrc] at hrun
  have hr : r = .error m := hrun
  subst hr
  constructor <;> simp only [process_tts_job, hload, hrc]

/-- The resource of the concrete escape scenario: every attempt raises a
non-transient error carrying the message `"boom"`. -/
def otherErrTTS : TTSModel := ⟨fun _ _ => .otherError "boom", 24⟩

/-- `retryEnv` with the non-transient-failure resource. -/
def otherErrEnv : JobEnv := { retryEnv with tts := otherErrTTS }

theorem non_transient_error_fails_job_witness :
    (∃ a, a < 3 ∧ otherErrTTS.generate (7 + a * 100) ['H', 'i', '.'] =
      .otherError "boom") ∧
    (generate_with_retries otherErrTTS 7 ['H', 'i', '.']).1 = .error "boom" ∧
    ((process_tts_job otherErrEnv retryParams).status = .failed ∧
      (process_tts_job otherErrEnv retryParams).error = some "boom") := by
  obtain ⟨h1, h2, h3⟩ := non_transient_error_fails_job otherErrTTS 7
    ['H', 'i', '.'] "boom" otherErrEnv retryParams 0
  refine ⟨h1 rfl, h2 rfl, h3 rfl (by decide) ?_ rfl⟩
  intro k hk
  exact absurd hk (Nat.not_lt_zero k)

theorem job_filepath_ne_empty (env : JobEnv) : job_filepath env ≠ "" := by
  unfold job_filepath
  intro h
  have hd := congrArg String.data h
  simp [String.data_append] at hd

/-- C8 (amended): a Completed job always carries a non-empty result
path; a Failed job's error field holds the raised exception's message,
which is non-empty provided every exception raised by the resource
load, the generation resource, or the persistence layer carries a
non-empty message. -/
theorem job_terminal_fields (env : JobEnv) (params : JobParams)
    (hgen : ∀ seed ch m, env.tts.generate seed ch = .otherError m → m ≠ "")
    (hsave : ∀ w m, env.save w = .error m → m ≠ "")
    (hload : ∀ m, env.load_model = .error m → m ≠ "") :
    ((process_tts_job env params).status = .completed →
      ∃ p, (process_tts_job env params).result_path = some p ∧ p ≠ "") ∧
    ((process_tts_job env params).status = .failed →
      ∃ m, (process_tts_job env params).error = some m ∧ m ≠ "") := by
  rcases hl : env.load_model with ml | mu
  · constructor
    · intro h
      simp [process_tts_job, hl] at h
    · intro _
      refine ⟨ml, ?_, hload ml hl⟩
      simp only [process_tts_job, hl]
  · rcases hrc : run_chunks env.tts (job_seed env params)
        (job_chunks env params).length (job_chunks env params) 0 with ⟨ws, r⟩
    rcases r with m | segs
    · have hm : m ≠ "" := by
        rcases run_chunks_error_source env.tts (job_seed env params)
            (job_chunks env params).length (job_chunks env params)
            0 m (by rw [hrc]) with ⟨s', ch, hg⟩
        exact hgen s' ch m hg
      constructor
      · intro h
        simp [process_tts_job, hl, hrc] at h
      · intro _
        refine ⟨m, ?_, hm⟩
        simp only [process_tts_job, hl, hrc]
    · rcases segs with _ | ⟨s0, rest⟩
      · constructor
        · intro h
          simp [process_tts_job, hl, hrc] at h
        · intro _
          refine ⟨"list index out of range", ?_, by decide⟩
          simp only [process_tts_job, hl, hrc]
      · rcases hsv : env.save (AudioProcessor.process env.hp env.lp
            env.dbToLinear env.audio_config (if 1 < (s0 :: rest).length then
              merge_audio_with_crossfade (s0 :: rest) env.tts.sr 150 30 else s0)
            env.tts.sr) with me | u2
        · constructor
          · intro h
            simp only [process_tts_job, hl, hrc, hsv] at h
            exact absurd h (by decide)
          · intro _
            refine ⟨me, ?_, hsave _ me hsv⟩
            simp only [process_tts_job, hl, hrc, hsv]
        · constructor
          · intro _
            refine ⟨job_filepath env, ?_, job_filepath_ne_empty env⟩
            simp only [process_tts_job, hl, hrc, hsv]
          · intro h
            simp only [process_tts_job, hl, hrc, hsv] at h
            exact absurd h (by decide)

theorem job_terminal_fields_witness :
    ∃ p, (process_tts_job retryEnv retryParams).result_path = some p ∧
      p ≠ "" := by
  have hcompleted : (process_tts_job retryEnv retryParams).status =
      .completed := rfl
  exact (job_terminal_fields retryEnv retryParams (fun _ _ _ h => nomatch h)
    (fun _ _ h => nomatch h) (fun _ h => nomatch h)).1 hcompleted

/-- The resource of the C8 counterexample: every attempt raises a
non-transient exception whose message (`str(e)`) is empty, as with
Python `RuntimeError("")`. -/
def emptyErrTTS : TTSModel := ⟨fun _ _ => .otherError "", 24⟩

/-- `retryEnv` with the empty-message-failure resource. -/
def emptyErrEnv : JobEnv := { retryEnv with tts := emptyErrTTS }

/-- C8 as stated is false on the code: a job that fails because the
resource raised an exception with an empty string representation ends
Failed with the empty string as its error message. -/
theorem failed_job_empty_error :
    (process_tts_job emptyErrEnv retryParams).status = .failed ∧
      (process_tts_job emptyErrEnv retryParams).error = some "" :=
  ⟨rfl, rfl⟩

end AutomationX
